import Mathlib

/-!
Verification development for `lemma_token_builder.py`, a batch pipeline that
extracts visible text from stored HTML pages, tokenizes the Russian content,
lemmatizes tokens with a morphological analyzer (pymorphy2, treated as an
external collaborator), filters functional words, and writes two sorted
output files (`tokens.txt`, `lemmas.txt`).

Strings are modelled as `List Char` (`Str`); the code points agree with
Python's `str` code points, and lexicographic comparison of `List Char`
agrees with Python's string comparison (code-point lexicographic, proper
prefix smaller).
-/

namespace LemmaTokenBuilder

abbrev Str := List Char

/-- Build a `Char` from a code point below the surrogate range. -/
def mkChar (n : Nat) (h : n < 0xd800) : Char :=
  ⟨⟨BitVec.ofNatLt n (by omega)⟩, Or.inl (by simpa [UInt32.toNat] using h)⟩

theorem toNat_mkChar (n : Nat) (h : n < 0xd800) : (mkChar n h).toNat = n := rfl

/-- Model of Python's per-character `str.isdigit()` restricted to the decimal
digits `0`–`9` (non-ASCII decimal digits never co-occur with the character
sets handled by this program). Source: `any(ch.isdigit() for ch in tok)`. -/
def pyIsDigit (c : Char) : Bool :=
  decide (0x30 ≤ c.toNat ∧ c.toNat ≤ 0x39)

/-- The character class of `RE_RU_WORD = re.compile(r"[а-яё]{2,}", re.IGNORECASE)`:
the Cyrillic letters а–я (U+0430–U+044F) and ё (U+0451), matched
case-insensitively, hence also А–Я (U+0410–U+042F), Ё (U+0401), and the
Cyrillic Extended-C letters ᲀ–ᲆ (U+1C80–U+1C86), whose case variants fall
inside а–я and which `re.IGNORECASE` therefore also matches. -/
def isRuWordChar (c : Char) : Bool :=
  decide ((0x430 ≤ c.toNat ∧ c.toNat ≤ 0x44F) ∨ c.toNat = 0x451 ∨
    (0x410 ≤ c.toNat ∧ c.toNat ≤ 0x42F) ∨ c.toNat = 0x401 ∨
    (0x1C80 ≤ c.toNat ∧ c.toNat ≤ 0x1C86))

/-- The 33 lowercase Cyrillic letters: а–я (U+0430–U+044F, 32 letters) plus
ё (U+0451). -/
def isLowerRuChar (c : Char) : Bool :=
  decide ((0x430 ≤ c.toNat ∧ c.toNat ≤ 0x44F) ∨ c.toNat = 0x451)

/-- The characters that can occur in a tokenizer output: the lowercased
part of the `RE_RU_WORD` class, i.e. the 33 lowercase Cyrillic letters
а–я/ё plus the Cyrillic Extended-C letters ᲀ–ᲆ (U+1C80–U+1C86), which are
already lowercase and which `str.lower()` leaves unchanged. -/
def isTokenChar (c : Char) : Bool :=
  decide ((0x430 ≤ c.toNat ∧ c.toNat ≤ 0x44F) ∨ c.toNat = 0x451 ∨
    (0x1C80 ≤ c.toNat ∧ c.toNat ≤ 0x1C86))

/-- Model of Python's Unicode-aware `str.lower()` on the code points this
program can meet: uppercase Cyrillic А–Я and Ё map to their lowercase
counterparts, ASCII A–Z maps to a–z, every other character is unchanged —
in particular the already-lowercase Cyrillic Extended-C letters ᲀ–ᲆ, and no
other Unicode character lowercases into the `RE_RU_WORD` class. -/
def pyLower (c : Char) : Char :=
  if h : 0x410 ≤ c.toNat ∧ c.toNat ≤ 0x42F then mkChar (c.toNat + 0x20) (by omega)
  else if c.toNat = 0x401 then mkChar 0x451 (by omega)
  else if h2 : 0x41 ≤ c.toNat ∧ c.toNat ≤ 0x5A then mkChar (c.toNat + 0x20) (by omega)
  else c

theorem pyLower_toNat (c : Char) :
    (pyLower c).toNat =
      if 0x410 ≤ c.toNat ∧ c.toNat ≤ 0x42F then c.toNat + 0x20
      else if c.toNat = 0x401 then 0x451
      else if 0x41 ≤ c.toNat ∧ c.toNat ≤ 0x5A then c.toNat + 0x20
      else c.toNat := by
  unfold pyLower
  by_cases h1 : 0x410 ≤ c.toNat ∧ c.toNat ≤ 0x42F
  · rw [dif_pos h1, if_pos h1, toNat_mkChar]
  · rw [dif_neg h1, if_neg h1]
    by_cases h2 : c.toNat = 0x401
    · rw [if_pos h2, if_pos h2, toNat_mkChar]
    · rw [if_neg h2, if_neg h2]
      by_cases h3 : 0x41 ≤ c.toNat ∧ c.toNat ≤ 0x5A
      · rw [dif_pos h3, if_pos h3, toNat_mkChar]
      · rw [dif_neg h3, if_neg h3]

/-- A character of lowercased text that the (case-insensitive) word pattern
matches is a lowercase member of the class: one of the 33 lowercase
Cyrillic letters or one of ᲀ–ᲆ (U+1C80–U+1C86). -/
theorem isTokenChar_pyLower (c : Char) (h : isRuWordChar (pyLower c) = true) :
    isTokenChar (pyLower c) = true := by
  have hn := pyLower_toNat c
  simp only [isRuWordChar, decide_eq_true_eq] at h
  simp only [isTokenChar, decide_eq_true_eq]
  by_cases h1 : 0x410 ≤ c.toNat ∧ c.toNat ≤ 0x42F
  · rw [if_pos h1] at hn; omega
  · rw [if_neg h1] at hn
    by_cases h2 : c.toNat = 0x401
    · rw [if_pos h2] at hn; omega
    · rw [if_neg h2] at hn
      by_cases h3 : 0x41 ≤ c.toNat ∧ c.toNat ≤ 0x5A
      · rw [if_pos h3] at hn; omega
      · rw [if_neg h3] at hn; omega

/-- The maximal runs of characters satisfying `p`, in order. A regex
`findall` of a greedy character-class repetition returns exactly the maximal
runs (of the required minimum length): a new run starts at a class character
whose predecessor is absent or outside the class, and extends greedily. -/
def findRuns (p : Char → Bool) : Str → List Str
  | [] => []
  | c :: cs =>
    if p c then
      match cs with
      | [] => [[c]]
      | c2 :: _ =>
        if p c2 then
          match findRuns p cs with
          | [] => [[c]]
          | run :: rest => (c :: run) :: rest
        else [c] :: findRuns p cs
    else findRuns p cs

theorem mem_findRuns_all {p : Char → Bool} :
    ∀ {l t : Str}, t ∈ findRuns p l → ∀ c ∈ t, p c = true := by
  intro l
  induction l with
  | nil => intro t ht; simp [findRuns] at ht
  | cons c cs ih =>
    intro t ht c' hc'
    simp only [findRuns] at ht
    by_cases hp : p c
    · rw [if_pos hp] at ht
      cases cs with
      | nil =>
        simp only [List.mem_singleton] at ht
        subst ht
        simp only [List.mem_singleton] at hc'
        subst hc'
        exact hp
      | cons c2 cs2 =>
        dsimp only at ht
        by_cases hp2 : p c2
        · rw [if_pos hp2] at ht
          cases hr : findRuns p (c2 :: cs2) with
          | nil =>
            rw [hr] at ht
            simp only [List.mem_singleton] at ht
            subst ht
            simp only [List.mem_singleton] at hc'
            subst hc'
            exact hp
          | cons run rest =>
            rw [hr] at ht
            rcases List.mem_cons.mp ht with rfl | htr
            · rcases List.mem_cons.mp hc' with rfl | hcr
              · exact hp
              · exact ih (t := run) (by rw [hr]; exact List.mem_cons_self run rest) c' hcr
            · exact ih (t := t) (by rw [hr]; exact List.mem_cons_of_mem run htr) c' hc'
        · rw [if_neg hp2] at ht
          rcases List.mem_cons.mp ht with rfl | htr
          · simp only [List.mem_singleton] at hc'
            subst hc'
            exact hp
          · exact ih htr c' hc'
    · rw [if_neg hp] at ht
      exact ih ht c' hc'

theorem mem_findRuns_subset {p : Char → Bool} :
    ∀ {l t : Str}, t ∈ findRuns p l → ∀ c ∈ t, c ∈ l := by
  intro l
  induction l with
  | nil => intro t ht; simp [findRuns] at ht
  | cons c cs ih =>
    intro t ht c' hc'
    simp only [findRuns] at ht
    by_cases hp : p c
    · rw [if_pos hp] at ht
      cases cs with
      | nil =>
        simp only [List.mem_singleton] at ht
        subst ht
        simp only [List.mem_singleton] at hc'
        subst hc'
        exact List.mem_cons_self _ _
      | cons c2 cs2 =>
        dsimp only at ht
        by_cases hp2 : p c2
        · rw [if_pos hp2] at ht
          cases hr : findRuns p (c2 :: cs2) with
          | nil =>
            rw [hr] at ht
            simp only [List.mem_singleton] at ht
            subst ht
            simp only [List.mem_singleton] at hc'
            subst hc'
            exact List.mem_cons_self _ _
          | cons run rest =>
            rw [hr] at ht
            rcases List.mem_cons.mp ht with rfl | htr
            · rcases List.mem_cons.mp hc' with rfl | hcr
              · exact List.mem_cons_self c' _
              · exact List.mem_cons_of_mem c
                  (ih (t := run) (by rw [hr]; exact List.mem_cons_self run rest) c' hcr)
            · exact List.mem_cons_of_mem c
                (ih (t := t) (by rw [hr]; exact List.mem_cons_of_mem run htr) c' hc')
        · rw [if_neg hp2] at ht
          rcases List.mem_cons.mp ht with rfl | htr
          · simp only [List.mem_singleton] at hc'
            subst hc'
            exact List.mem_cons_self _ _
          · exact List.mem_cons_of_mem c (ih htr c' hc')
    · rw [if_neg hp] at ht
      exact List.mem_cons_of_mem c (ih ht c' hc')

/-- `tokenize(text)`: lowercase the text, take all matches of
`RE_RU_WORD` (the maximal runs of Cyrillic letters of length ≥ 2), then keep
only those with `2 <= len(t) <= 40`. -/
def tokenize (text : Str) : List Str :=
  let lowered := text.map pyLower
  let tokens := (findRuns isRuWordChar lowered).filter (fun t => decide (2 ≤ t.length))
  tokens.filter (fun t => decide (2 ≤ t.length ∧ t.length ≤ 40))

/-- A parse event delivered by the host HTML parser (Python's
`html.parser.HTMLParser`, an external collaborator) to the extractor's
handler methods: an opening tag, a closing tag, or a run of character data. -/
inductive HEvent where
  | startTag : Str → HEvent
  | endTag : Str → HEvent
  | data : Str → HEvent

/-- The tags whose content is skipped: `("script", "style", "noscript")`. -/
def skipTags : List Str := ["script".toList, "style".toList, "noscript".toList]

/-- The mutable state of `HTMLTextExtractor`: `self._parts` and `self._skip`
(a Python `int`, hence modelled as `Int`). -/
structure ExtractorState where
  parts : List Str
  skip : Int
deriving DecidableEq

/-- One handler dispatch of `HTMLTextExtractor`:
`handle_starttag` increments `_skip` on a skip tag, `handle_endtag`
decrements it on a skip tag only when `_skip > 0`, and `handle_data`
appends nonempty data to `_parts` only when `_skip == 0`. -/
def handleEvent (st : ExtractorState) (e : HEvent) : ExtractorState :=
  match e with
  | .startTag tag =>
      if (tag.map pyLower) ∈ skipTags then { st with skip := st.skip + 1 } else st
  | .endTag tag =>
      if (tag.map pyLower) ∈ skipTags ∧ st.skip > 0 then { st with skip := st.skip - 1 }
      else st
  | .data d =>
      if st.skip = 0 ∧ d ≠ [] then { st with parts := st.parts ++ [d] } else st

/-- Feeding a whole event stream to a fresh `HTMLTextExtractor`. -/
def feedEvents (events : List HEvent) : ExtractorState :=
  events.foldl handleEvent ⟨[], 0⟩

/-- `get_text`: `" ".join(self._parts)`. -/
def getText (st : ExtractorState) : Str :=
  List.intercalate [' '] st.parts

/-- `html_to_text`, at the parse-event level. -/
def html_to_text (events : List HEvent) : Str :=
  getText (feedEvents events)

/-- Spec-side description of the extractor (modelled from the spec's words:
"entering any of these tags increments a skip counter, leaving one
decrements it, text is emitted only while skip counter is 0"): the
visible fragments of an event stream, given the current skip depth. -/
def visibleFragments (depth : Nat) : List HEvent → List Str
  | [] => []
  | .startTag tag :: es =>
      visibleFragments (if (tag.map pyLower) ∈ skipTags then depth + 1 else depth) es
  | .endTag tag :: es =>
      visibleFragments (if (tag.map pyLower) ∈ skipTags ∧ depth > 0 then depth - 1 else depth) es
  | .data d :: es =>
      if depth = 0 ∧ d ≠ [] then d :: visibleFragments depth es
      else visibleFragments depth es

theorem foldl_handleEvent_parts (events : List HEvent) :
    ∀ (acc : List Str) (depth : Nat),
      (events.foldl handleEvent ⟨acc, (depth : Int)⟩).parts =
        acc ++ visibleFragments depth events := by
  induction events with
  | nil => intro acc depth; simp [visibleFragments]
  | cons e es ih =>
    intro acc depth
    match e with
    | .startTag tag =>
      simp only [List.foldl_cons, handleEvent, visibleFragments]
      by_cases hs : (tag.map pyLower) ∈ skipTags
      · rw [if_pos hs, if_pos hs]
        have hcast : ((depth : Int) + 1) = ((depth + 1 : Nat) : Int) := by omega
        rw [hcast]
        exact ih acc (depth + 1)
      · rw [if_neg hs, if_neg hs]
        exact ih acc depth
    | .endTag tag =>
      simp only [List.foldl_cons, handleEvent, visibleFragments]
      by_cases hs : (tag.map pyLower) ∈ skipTags ∧ (depth : Int) > 0
      · rw [if_pos hs]
        have hd : (tag.map pyLower) ∈ skipTags ∧ depth > 0 := by
          exact ⟨hs.1, by exact_mod_cast hs.2⟩
        rw [if_pos hd]
        have hcast : ((depth : Int) - 1) = ((depth - 1 : Nat) : Int) := by omega
        rw [hcast]
        exact ih acc (depth - 1)
      · rw [if_neg hs]
        have hd : ¬((tag.map pyLower) ∈ skipTags ∧ depth > 0) := by
          intro hc; exact hs ⟨hc.1, by exact_mod_cast hc.2⟩
        rw [if_neg hd]
        exact ih acc depth
    | .data d =>
      simp only [List.foldl_cons, handleEvent, visibleFragments]
      by_cases hz : (depth : Int) = 0 ∧ d ≠ []
      · rw [if_pos hz]
        have hd : depth = 0 ∧ d ≠ [] := ⟨by exact_mod_cast hz.1, hz.2⟩
        rw [if_pos hd]
        rw [ih (acc ++ [d]) depth]
        simp
      · rw [if_neg hz]
        have hd : ¬(depth = 0 ∧ d ≠ []) := by
          intro hc; exact hz ⟨by exact_mod_cast hc.1, hc.2⟩
        rw [if_neg hd]
        exact ih acc depth

/-- One candidate interpretation returned by the morphological analyzer
collaborator: `p.tag.POS` (which may be `None`, e.g. for unknown words) and
`p.normal_form`. -/
structure Parse where
  pos : Option Str
  normal_form : Str

/-- `bad_pos = {"PREP", "CONJ", "PRCL", "INTJ"}`. -/
def bad_pos : List Str := ["PREP".toList, "CONJ".toList, "PRCL".toList, "INTJ".toList]

/-- Python's `pos in bad_pos` where `pos` may be `None` (`None in bad_pos`
is `False`). -/
def inBadPos (pos : Option Str) : Bool :=
  match pos with
  | some s => decide (s ∈ bad_pos)
  | none => false

/-- `RE_RU_WORD.fullmatch(lemma)`: the whole string is a run of ≥ 2
characters of the (case-insensitive) Cyrillic class. -/
def ruFullmatch (s : Str) : Bool :=
  s.all isRuWordChar && decide (2 ≤ s.length)

/-- The aggregation state built by `main`'s token loop:
`tokens_set : set[str]` and `lemma_to_tokens : dict[str, set[str]]`.
The dict is modelled as its key set together with a total function that is
`∅` off the keys (faithful here because the code inserts a token under a
key in the same step that creates the key). -/
@[ext]
structure AggState where
  tokens_set : Finset Str
  lemma_to_tokens : Str → Finset Str
  lemma_keys : Finset Str

/-- The loop body of `main`'s `for tok in all_tokens` loop: digit filter,
analyzer query, empty-parse filter, functional-POS filter on the top parse,
lemma recheck, then insertion into both containers. -/
def processToken (morph : Str → List Parse) (st : AggState) (tok : Str) : AggState :=
  if tok.any pyIsDigit then st
  else
    match morph tok with
    | [] => st
    | p :: _ =>
      if inBadPos p.pos then st
      else if !(ruFullmatch p.normal_form &&
                decide (2 ≤ p.normal_form.length ∧ p.normal_form.length ≤ 40)) then st
      else
        { tokens_set := insert tok st.tokens_set,
          lemma_to_tokens := Function.update st.lemma_to_tokens p.normal_form
            (insert tok (st.lemma_to_tokens p.normal_form)),
          lemma_keys := insert p.normal_form st.lemma_keys }

/-- The lemma-recheck predicate applied to the top parse's normal form. -/
def lemmaOk (l : Str) : Bool :=
  ruFullmatch l && decide (2 ≤ l.length ∧ l.length ≤ 40)

/-- The outcome of the per-token filter chain: `some lemma` when the token
passes every filter (with the top parse's normal form), `none` when some
filter rejects it. -/
def acceptedLemma (morph : Str → List Parse) (tok : Str) : Option Str :=
  if tok.any pyIsDigit then none
  else
    match morph tok with
    | [] => none
    | p :: _ =>
      if inBadPos p.pos then none
      else if !(lemmaOk p.normal_form) then none
      else some p.normal_form

/-- Insertion of an accepted token under its lemma. -/
def addTok (st : AggState) (tok lm : Str) : AggState :=
  { tokens_set := insert tok st.tokens_set,
    lemma_to_tokens := Function.update st.lemma_to_tokens lm
      (insert tok (st.lemma_to_tokens lm)),
    lemma_keys := insert lm st.lemma_keys }

theorem processToken_eq (morph : Str → List Parse) (st : AggState) (tok : Str) :
    processToken morph st tok =
      match acceptedLemma morph tok with
      | none => st
      | some lm => addTok st tok lm := by
  unfold processToken acceptedLemma addTok lemmaOk
  by_cases hd : tok.any pyIsDigit
  · rw [if_pos hd, if_pos hd]
  · rw [if_neg hd, if_neg hd]
    match hm : morph tok with
    | [] => rfl
    | p :: ps =>
      dsimp only
      by_cases hb : inBadPos p.pos
      · rw [if_pos hb, if_pos hb]
      · rw [if_neg hb, if_neg hb]
        by_cases hl : (ruFullmatch p.normal_form &&
            decide (2 ≤ p.normal_form.length ∧ p.normal_form.length ≤ 40)) = true
        · have hbn : (!(ruFullmatch p.normal_form &&
              decide (2 ≤ p.normal_form.length ∧ p.normal_form.length ≤ 40))) = false := by
            rw [hl]; rfl
          rw [hbn]
          simp
        · simp only [Bool.not_eq_true] at hl
          have hbn : (!(ruFullmatch p.normal_form &&
              decide (2 ≤ p.normal_form.length ∧ p.normal_form.length ≤ 40))) = true := by
            rw [hl]; rfl
          rw [hbn]
          simp

/-- `aggregate`: the whole token loop, folded over the concatenated corpus
token sequence starting from empty containers. -/
def initAggState : AggState := ⟨∅, fun _ => ∅, ∅⟩

def aggregate (morph : Str → List Parse) (toks : List Str) : AggState :=
  toks.foldl (processToken morph) initAggState

/-- Python's `sorted` on a set of strings: the elements in (strictly)
increasing code-point-lexicographic order (`List Char` carries the
lexicographic linear order, which agrees with Python string comparison). -/
def sortStr (s : Finset Str) : List Str :=
  s.sort (· ≤ ·)

/-- The lines of `tokens.txt`: `for t in sorted(tokens_set): f.write(t + "\n")`. -/
def tokensLines (st : AggState) : List Str :=
  sortStr st.tokens_set

/-- One line of `lemmas.txt`: `lemma + " " + " ".join(sorted(lemma_to_tokens[lemma]))`. -/
def lemmaLine (st : AggState) (lm : Str) : Str :=
  lm ++ ' ' :: List.intercalate [' '] (sortStr (st.lemma_to_tokens lm))

/-- The lines of `lemmas.txt`: one per lemma, in sorted key order. -/
def lemmasLines (st : AggState) : List Str :=
  (sortStr st.lemma_keys).map (lemmaLine st)

/-- File contents: every line is written followed by `"\n"`. -/
def serializeLines (lines : List Str) : Str :=
  (lines.map (fun l => l ++ ['\n'])).flatten

/-- The abstract environment `main` runs against: whether `pages/` exists,
the (unordered) list of `pages/*.txt` paths `glob` found, and the parse
events that reading and HTML-parsing each file produces. -/
structure FileSystem where
  pagesDirExists : Bool
  txtFiles : List Str
  pageEvents : Str → List HEvent

/-- The two fatal setup failures of `main`, both raised as
`FileNotFoundError` with distinct messages:
`"Нет папки pages/ ..."` and `"В pages/ нет *.txt файлов"`. -/
inductive RunError where
  | missingDir
  | noInputFiles
deriving DecidableEq

/-- The two files written on success. -/
structure RunOutput where
  tokensFile : Str
  lemmasFile : Str
deriving DecidableEq

/-- `main()`: directory check, `sorted(glob(...))`, empty-input check, the
per-file extract-and-tokenize loop accumulating `all_tokens`, the
aggregation loop, and the serialization of both output files. An error
result models the raised exception propagating out of `main` (non-zero
process exit, no output files written). -/
def main (fs : FileSystem) (morph : Str → List Parse) : Except RunError RunOutput :=
  if ¬fs.pagesDirExists then .error .missingDir
  else
    let files := List.insertionSort (· ≤ ·) fs.txtFiles
    if files = [] then .error .noInputFiles
    else
      let all_tokens := files.foldl
        (fun acc path => acc ++ tokenize (html_to_text (fs.pageEvents path))) []
      let st := aggregate morph all_tokens
      .ok ⟨serializeLines (tokensLines st), serializeLines (lemmasLines st)⟩

/-- The loop invariant of the aggregation stage: every token recorded under
a lemma key passed the filter chain with exactly that lemma and is in the
token set, every token of the token set is recorded under its accepted
lemma, and the key set is exactly the set of keys with nonempty value-set. -/
def Inv (morph : Str → List Parse) (st : AggState) : Prop :=
  (∀ l t, t ∈ st.lemma_to_tokens l → acceptedLemma morph t = some l ∧ t ∈ st.tokens_set) ∧
  (∀ t, t ∈ st.tokens_set →
    ∃ l, acceptedLemma morph t = some l ∧ t ∈ st.lemma_to_tokens l) ∧
  (∀ l, l ∈ st.lemma_keys ↔ (st.lemma_to_tokens l).Nonempty)

theorem inv_initAggState (morph : Str → List Parse) : Inv morph initAggState := by
  refine ⟨fun l t ht => ?_, fun t ht => ?_, fun l => ?_⟩ <;>
    simp [initAggState] at *

theorem inv_processToken (morph : Str → List Parse) (st : AggState) (tok : Str)
    (h : Inv morph st) : Inv morph (processToken morph st tok) := by
  rw [processToken_eq]
  cases hacc : acceptedLemma morph tok with
  | none => exact h
  | some lm =>
    obtain ⟨h1, h2, h3⟩ := h
    refine ⟨fun l t ht => ?_, fun t ht => ?_, fun l => ?_⟩
    · simp only [addTok, Function.update_apply] at ht
      by_cases hl : l = lm
      · rw [if_pos hl] at ht
        rcases Finset.mem_insert.mp ht with rfl | ht
        · exact ⟨hl ▸ hacc, by simp [addTok]⟩
        · exact ⟨hl ▸ (h1 lm t ht).1, by simp [addTok, (h1 lm t ht).2]⟩
      · rw [if_neg hl] at ht
        exact ⟨(h1 l t ht).1, by simp [addTok, (h1 l t ht).2]⟩
    · simp only [addTok, Finset.mem_insert] at ht
      rcases ht with rfl | ht
      · exact ⟨lm, hacc, by simp [addTok, Function.update_apply]⟩
      · obtain ⟨l, hal, hml⟩ := h2 t ht
        refine ⟨l, hal, ?_⟩
        simp only [addTok, Function.update_apply]
        by_cases hl : l = lm
        · rw [if_pos hl]
          exact Finset.mem_insert_of_mem (hl ▸ hml)
        · rw [if_neg hl]
          exact hml
    · simp only [addTok, Finset.mem_insert, Function.update_apply]
      by_cases hl : l = lm
      · subst hl
        simp only [if_pos rfl]
        exact ⟨fun _ => ⟨tok, Finset.mem_insert_self _ _⟩, fun _ => by simp⟩
      · rw [if_neg hl]
        constructor
        · intro hmem
          rcases hmem with heq | hmem
          · exact absurd heq hl
          · exact (h3 l).mp hmem
        · intro hne
          exact Or.inr ((h3 l).mpr hne)

theorem inv_foldl (morph : Str → List Parse) :
    ∀ (toks : List Str) (st : AggState), Inv morph st →
      Inv morph (toks.foldl (processToken morph) st) := by
  intro toks
  induction toks with
  | nil => intro st h; exact h
  | cons t ts ih =>
    intro st h
    exact ih _ (inv_processToken morph st t h)

theorem inv_aggregate (morph : Str → List Parse) (toks : List Str) :
    Inv morph (aggregate morph toks) :=
  inv_foldl morph toks initAggState (inv_initAggState morph)

theorem addTok_comm (st : AggState) (t1 l1 t2 l2 : Str) :
    addTok (addTok st t1 l1) t2 l2 = addTok (addTok st t2 l2) t1 l1 := by
  ext x
  · constructor <;> intro hx <;>
      · simp only [addTok, Finset.mem_insert] at *
        tauto
  · constructor <;> intro hx <;>
      · simp only [addTok, Function.update_apply] at *
        by_cases e1 : x = l1 <;> by_cases e2 : x = l2 <;>
          simp only [if_pos, if_neg, e1, e2] at * <;>
          simp_all [Finset.mem_insert] <;> tauto
  · constructor <;> intro hx <;>
      · simp only [addTok, Finset.mem_insert] at *
        tauto

theorem processToken_comm (morph : Str → List Parse) (st : AggState) (t1 t2 : Str) :
    processToken morph (processToken morph st t1) t2 =
      processToken morph (processToken morph st t2) t1 := by
  cases h1 : acceptedLemma morph t1 with
  | none =>
    cases h2 : acceptedLemma morph t2 <;> simp only [processToken_eq, h1, h2]
  | some lm1 =>
    cases h2 : acceptedLemma morph t2 with
    | none => simp only [processToken_eq, h1, h2]
    | some lm2 =>
      simp only [processToken_eq, h1, h2]
      exact addTok_comm st t1 lm1 t2 lm2

theorem tokenize_mem_runs {text t : Str} (ht : t ∈ tokenize text) :
    t ∈ findRuns isRuWordChar (text.map pyLower) ∧ 2 ≤ t.length ∧ t.length ≤ 40 := by
  unfold tokenize at ht
  simp only [List.mem_filter, decide_eq_true_eq] at ht
  exact ⟨ht.1.1, ht.2.1, ht.2.2⟩

theorem tokenize_chars_token {text t : Str} (ht : t ∈ tokenize text) :
    ∀ c ∈ t, isTokenChar c = true := by
  intro c hc
  have hrun := (tokenize_mem_runs ht).1
  have hcls := mem_findRuns_all hrun c hc
  have hmem := mem_findRuns_subset hrun c hc
  obtain ⟨d, _, rfl⟩ := List.mem_map.mp hmem
  exact isTokenChar_pyLower d hcls

/-- A demonstration analyzer used to build concrete runs: every token gets a
single NOUN parse whose normal form is the token itself. -/
def demoMorph : Str → List Parse :=
  fun t => [⟨some "NOUN".toList, t⟩]

/-- The parse events of the page
`<script>мусор123</script><p>Привет мир</p>` as Python's `HTMLParser`
delivers them to the handler methods. -/
def scenarioEvents : List HEvent :=
  [HEvent.startTag "script".toList, HEvent.data "мусор123".toList,
   HEvent.endTag "script".toList, HEvent.startTag "p".toList,
   HEvent.data "Привет мир".toList, HEvent.endTag "p".toList]

/-- `processToken` with the digit-rejection filter (step 1) removed,
used to compare against `processToken` on Tokenizer-produced input. -/
def processTokenNoDigitFilter (morph : Str → List Parse) (st : AggState) (tok : Str) :
    AggState :=
  match morph tok with
  | [] => st
  | p :: _ =>
    if inBadPos p.pos then st
    else if !(ruFullmatch p.normal_form &&
              decide (2 ≤ p.normal_form.length ∧ p.normal_form.length ≤ 40)) then st
    else
      { tokens_set := insert tok st.tokens_set,
        lemma_to_tokens := Function.update st.lemma_to_tokens p.normal_form
          (insert tok (st.lemma_to_tokens p.normal_form)),
        lemma_keys := insert p.normal_form st.lemma_keys }

/-- C2 counterexample: the claim "every token consists solely of the 33
lowercase Cyrillic letters (а–я plus ё)" is false of the program: the input
`мᲀр` (with ᲀ = U+1C80, which `str.lower()` leaves unchanged and which the
case-insensitive `[а-яё]` class matches) tokenizes to the single token
`мᲀр`, whose middle character is not one of the 33 letters. -/
theorem C2_counterexample :
    tokenize "мᲀр".toList = ["мᲀр".toList] ∧
      ¬(∀ t ∈ tokenize "мᲀр".toList, ∀ c ∈ t, isLowerRuChar c = true) := by
  constructor
  · decide
  · decide

/-- C2 (amended): every token produced by `tokenize` has length between 2
and 40 and consists solely of lowercase characters of the case-insensitive
`[а-яё]` class — the 33 lowercase Cyrillic letters (а–я plus ё) together
with the Cyrillic Extended-C letters ᲀ–ᲆ (U+1C80–U+1C86), which the class
matches case-insensitively and lowercasing leaves unchanged; the tokenizer
lowercases the text (Ё→ё included), extracts the maximal Cyrillic runs of
length ≥ 2, and drops longer-than-40 runs entirely (each surviving token is
itself one of the maximal runs of the lowercased text, never a
truncation). -/
theorem C2_tokenize_output_shape (text t : Str) (ht : t ∈ tokenize text) :
    2 ≤ t.length ∧ t.length ≤ 40 ∧ (∀ c ∈ t, isTokenChar c = true) ∧
      t ∈ findRuns isRuWordChar (text.map pyLower) := by
  obtain ⟨hrun, h2, h40⟩ := tokenize_mem_runs ht
  exact ⟨h2, h40, tokenize_chars_token ht, hrun⟩

theorem C2_witness :
    "привет".toList ∈ tokenize "Привет, мир!".toList ∧
      (2 ≤ ("привет".toList : Str).length ∧ ("привет".toList : Str).length ≤ 40 ∧
        (∀ c ∈ ("привет".toList : Str), isTokenChar c = true) ∧
        "привет".toList ∈ findRuns isRuWordChar ("Привет, мир!".toList.map pyLower)) :=
  ⟨by decide, C2_tokenize_output_shape "Привет, мир!".toList "привет".toList (by decide)⟩

/-- C8: the digit-rejection filter is unreachable for Tokenizer-produced
input: a token produced by `tokenize` contains no decimal digit, so on such
tokens `processToken` behaves exactly like the same code with the
digit-contamination branch removed. -/
theorem C8_digit_filter_unreachable (text t : Str) (ht : t ∈ tokenize text) :
    t.any pyIsDigit = false ∧
      ∀ (morph : Str → List Parse) (st : AggState),
        processToken morph st t = processTokenNoDigitFilter morph st t := by
  have hnd : t.any pyIsDigit = false := by
    rw [List.any_eq_false]
    intro c hc
    have hl := tokenize_chars_token ht c hc
    simp only [isTokenChar, decide_eq_true_eq] at hl
    simp only [pyIsDigit, decide_eq_true_eq]
    omega
  refine ⟨hnd, fun morph st => ?_⟩
  unfold processToken processTokenNoDigitFilter
  rw [hnd]
  simp

theorem C8_witness :
    ("мир".toList : Str).any pyIsDigit = false ∧
      processToken demoMorph initAggState "мир".toList =
        processTokenNoDigitFilter demoMorph initAggState "мир".toList :=
  ⟨(C8_digit_filter_unreachable "мир".toList "мир".toList (by decide)).1,
    (C8_digit_filter_unreachable "мир".toList "мир".toList (by decide)).2
      demoMorph initAggState⟩

/-- C5: the extractor returns the visible data fragments joined by a single
space in order, text inside script/style/noscript (tracked by the skip
counter) excluded; and the page
`<script>мусор123</script><p>Привет мир</p>` yields exactly the tokens
привет and мир after tokenization. -/
theorem C5_extractor_visible_text (events : List HEvent) :
    html_to_text events = List.intercalate [' '] (visibleFragments 0 events) ∧
      tokenize (html_to_text scenarioEvents) = ["привет".toList, "мир".toList] := by
  constructor
  · unfold html_to_text getText feedEvents
    have h := foldl_handleEvent_parts events [] 0
    simp only [Int.natCast_zero] at h
    rw [h]
    simp
  · decide

/-- C9: the extractor's skip counter never becomes negative: from any
nonnegative state it stays nonnegative, and a closing skip tag handled at
counter 0 leaves the whole state unchanged, so the subsequent events are
processed exactly as if the stray closing tag had not occurred. -/
theorem C9_skip_never_negative (st : ExtractorState) (tag : Str)
    (events : List HEvent) (h0 : st.skip = 0) :
    (∀ (evs : List HEvent) (s : ExtractorState), 0 ≤ s.skip →
      0 ≤ (evs.foldl handleEvent s).skip) ∧
      handleEvent st (.endTag tag) = st ∧
      (HEvent.endTag tag :: events).foldl handleEvent st = events.foldl handleEvent st := by
  have hstep : ∀ (s : ExtractorState) (e : HEvent), 0 ≤ s.skip →
      0 ≤ (handleEvent s e).skip := by
    intro s e hs
    cases e with
    | startTag t =>
      dsimp only [handleEvent]
      split
      · dsimp only; omega
      · exact hs
    | endTag t =>
      dsimp only [handleEvent]
      split
      · rename_i hcond
        dsimp only
        omega
      · exact hs
    | data d =>
      dsimp only [handleEvent]
      split
      · exact hs
      · exact hs
  have hend : handleEvent st (.endTag tag) = st := by
    have hneg : ¬((tag.map pyLower) ∈ skipTags ∧ st.skip > 0) := by
      intro hc
      rw [h0] at hc
      exact lt_irrefl 0 hc.2
    dsimp only [handleEvent]
    rw [if_neg hneg]
  refine ⟨?_, hend, ?_⟩
  · intro evs
    induction evs with
    | nil => intro s hs; exact hs
    | cons e es ih =>
      intro s hs
      exact ih _ (hstep s e hs)
  · simp only [List.foldl_cons, hend]

theorem C9_witness :
    (∀ (evs : List HEvent) (s : ExtractorState), 0 ≤ s.skip →
      0 ≤ (evs.foldl handleEvent s).skip) ∧
      handleEvent ⟨[], 0⟩ (.endTag "script".toList) = (⟨[], 0⟩ : ExtractorState) ∧
      (HEvent.endTag "script".toList :: scenarioEvents).foldl handleEvent ⟨[], 0⟩ =
        scenarioEvents.foldl handleEvent ⟨[], 0⟩ :=
  C9_skip_never_negative ⟨[], 0⟩ "script".toList scenarioEvents rfl

/-- C1: per token of the concatenated corpus sequence, the aggregator's
filters apply in order with short-circuit: a digit anywhere rejects; else an
empty parse list rejects; else the top-ranked parse (index 0) is taken and a
functional POS tag (PREP/CONJ/PRCL/INTJ) rejects; else a normal form that is
not 2–40 Cyrillic letters rejects; else the token is added to the token set
and to the set keyed by the top parse's normal form (created if absent). -/
theorem C1_filter_chain (morph : Str → List Parse) (st : AggState) (tok : Str) :
    (tok.any pyIsDigit = true → processToken morph st tok = st) ∧
    (tok.any pyIsDigit = false → morph tok = [] → processToken morph st tok = st) ∧
    (∀ p ps, tok.any pyIsDigit = false → morph tok = p :: ps →
      inBadPos p.pos = true → processToken morph st tok = st) ∧
    (∀ p ps, tok.any pyIsDigit = false → morph tok = p :: ps →
      inBadPos p.pos = false → lemmaOk p.normal_form = false →
      processToken morph st tok = st) ∧
    (∀ p ps, tok.any pyIsDigit = false → morph tok = p :: ps →
      inBadPos p.pos = false → lemmaOk p.normal_form = true →
      processToken morph st tok =
        { tokens_set := insert tok st.tokens_set,
          lemma_to_tokens := Function.update st.lemma_to_tokens p.normal_form
            (insert tok (st.lemma_to_tokens p.normal_form)),
          lemma_keys := insert p.normal_form st.lemma_keys }) := by
  refine ⟨fun hd => ?_, fun hd hm => ?_, fun p ps hd hm hb => ?_,
    fun p ps hd hm hb hl => ?_, fun p ps hd hm hb hl => ?_⟩
  · have hacc : acceptedLemma morph tok = none := by
      unfold acceptedLemma
      rw [if_pos hd]
    rw [processToken_eq, hacc]
  · have hacc : acceptedLemma morph tok = none := by
      unfold acceptedLemma
      rw [if_neg (by rw [hd]; exact Bool.false_ne_true), hm]
    rw [processToken_eq, hacc]
  · have hacc : acceptedLemma morph tok = none := by
      unfold acceptedLemma
      rw [if_neg (by rw [hd]; exact Bool.false_ne_true), hm]
      dsimp only
      rw [if_pos hb]
    rw [processToken_eq, hacc]
  · have hacc : acceptedLemma morph tok = none := by
      unfold acceptedLemma
      rw [if_neg (by rw [hd]; exact Bool.false_ne_true), hm]
      dsimp only
      rw [if_neg (by rw [hb]; exact Bool.false_ne_true)]
      rw [if_pos (by rw [hl]; rfl)]
    rw [processToken_eq, hacc]
  · have hacc : acceptedLemma morph tok = some p.normal_form := by
      unfold acceptedLemma
      rw [if_neg (by rw [hd]; exact Bool.false_ne_true), hm]
      dsimp only
      rw [if_neg (by rw [hb]; exact Bool.false_ne_true)]
      rw [if_neg (by rw [hl]; exact Bool.false_ne_true)]
    rw [processToken_eq, hacc]
    rfl

theorem C1_witness :
    processToken demoMorph initAggState "мир".toList =
      { tokens_set := insert "мир".toList initAggState.tokens_set,
        lemma_to_tokens := Function.update initAggState.lemma_to_tokens "мир".toList
          (insert "мир".toList (initAggState.lemma_to_tokens "мир".toList)),
        lemma_keys := insert "мир".toList initAggState.lemma_keys } :=
  (C1_filter_chain demoMorph initAggState "мир".toList).2.2.2.2
    ⟨some "NOUN".toList, "мир".toList⟩ [] (by decide) rfl (by decide) (by decide)

/-- C3: after aggregation, the token set and every lemma value-set are
duplicate-free, every token recorded under a lemma is in the token set, and
a token appears under at most one lemma key. -/
theorem C3_aggregation_invariants (morph : Str → List Parse) (toks : List Str) :
    (tokensLines (aggregate morph toks)).Nodup ∧
    (∀ l, (sortStr ((aggregate morph toks).lemma_to_tokens l)).Nodup) ∧
    (∀ l t, t ∈ (aggregate morph toks).lemma_to_tokens l →
      t ∈ (aggregate morph toks).tokens_set) ∧
    (∀ t l1 l2, t ∈ (aggregate morph toks).lemma_to_tokens l1 →
      t ∈ (aggregate morph toks).lemma_to_tokens l2 → l1 = l2) := by
  obtain ⟨h1, _, _⟩ := inv_aggregate morph toks
  refine ⟨Finset.sort_nodup _ _, fun l => Finset.sort_nodup _ _, ?_, ?_⟩
  · intro l t ht
    exact (h1 l t ht).2
  · intro t l1 l2 ht1 ht2
    have e1 := (h1 l1 t ht1).1
    have e2 := (h1 l2 t ht2).1
    rw [e1] at e2
    exact Option.some.inj e2

theorem C3_witness :
    "мир".toList ∈ (aggregate demoMorph ["мир".toList]).tokens_set :=
  (C3_aggregation_invariants demoMorph ["мир".toList]).2.2.1
    "мир".toList "мир".toList (by decide)

/-- C10: every member of the token set is recorded under exactly one lemma
key of the lemma index (hence every line of the tokens file appears as a
surface token on exactly one line of the lemmas file). -/
theorem C10_every_token_under_one_lemma (morph : Str → List Parse) (toks : List Str)
    (t : Str) (htok : t ∈ (aggregate morph toks).tokens_set) :
    (t ∈ tokensLines (aggregate morph toks)) ∧
      ∃! l, l ∈ (aggregate morph toks).lemma_keys ∧
        t ∈ (aggregate morph toks).lemma_to_tokens l := by
  obtain ⟨h1, h2, h3⟩ := inv_aggregate morph toks
  refine ⟨(Finset.mem_sort _).mpr htok, ?_⟩
  obtain ⟨l, hal, hml⟩ := h2 t htok
  refine ⟨l, ⟨(h3 l).mpr ⟨t, hml⟩, hml⟩, ?_⟩
  rintro l' ⟨_, hml'⟩
  have e := (h1 l' t hml').1
  rw [hal] at e
  exact (Option.some.inj e).symm

theorem C10_witness :
    ("мир".toList ∈ tokensLines (aggregate demoMorph ["мир".toList])) ∧
      ∃! l, l ∈ (aggregate demoMorph ["мир".toList]).lemma_keys ∧
        "мир".toList ∈ (aggregate demoMorph ["мир".toList]).lemma_to_tokens l :=
  C10_every_token_under_one_lemma demoMorph ["мир".toList] "мир".toList (by decide)

/-- The page-event map used in concrete runs: every file parses to the
scenario events. -/
def demoPages : Str → List HEvent := fun _ => scenarioEvents

/-- An analyzer that returns no candidate parses for any token. -/
def morphNone : Str → List Parse := fun _ => []

/-- C4: on successful completion, the tokens file holds one surface token
per line in strictly increasing lexicographic order, and the lemmas file
holds one line per lemma in strictly increasing lexicographic order of the
lemma, each line being the lemma followed by the space-separated strictly
increasing list of its surface tokens, every line newline-terminated. -/
theorem C4_output_files_sorted (fs : FileSystem) (morph : Str → List Parse)
    (out : RunOutput) (h : main fs morph = .ok out) :
    ∃ st : AggState,
      out.tokensFile = serializeLines (tokensLines st) ∧
      out.lemmasFile = serializeLines (lemmasLines st) ∧
      List.Sorted (· < ·) (tokensLines st) ∧
      List.Sorted (· < ·) (sortStr st.lemma_keys) ∧
      lemmasLines st = (sortStr st.lemma_keys).map (lemmaLine st) ∧
      (∀ l, List.Sorted (· < ·) (sortStr (st.lemma_to_tokens l))) := by
  simp only [main] at h
  by_cases hdir : fs.pagesDirExists = true
  · rw [if_neg (by simp [hdir])] at h
    by_cases hfiles : List.insertionSort (· ≤ ·) fs.txtFiles = []
    · rw [if_pos hfiles] at h
      exact absurd h (by simp)
    · rw [if_neg hfiles] at h
      injection h with h'
      refine ⟨aggregate morph ((List.insertionSort (· ≤ ·) fs.txtFiles).foldl
        (fun acc path => acc ++ tokenize (html_to_text (fs.pageEvents path))) []),
        ?_, ?_, ?_, ?_, rfl, ?_⟩
      · rw [← h']
      · rw [← h']
      · exact Finset.sort_sorted_lt _
      · exact Finset.sort_sorted_lt _
      · intro l
        exact Finset.sort_sorted_lt _
  · rw [if_pos (by simp [hdir])] at h
    exact absurd h (by simp)

theorem C4_witness :
    ∃ st : AggState,
      (⟨[], []⟩ : RunOutput).tokensFile = serializeLines (tokensLines st) ∧
      (⟨[], []⟩ : RunOutput).lemmasFile = serializeLines (lemmasLines st) ∧
      List.Sorted (· < ·) (tokensLines st) ∧
      List.Sorted (· < ·) (sortStr st.lemma_keys) ∧
      lemmasLines st = (sortStr st.lemma_keys).map (lemmaLine st) ∧
      (∀ l, List.Sorted (· < ·) (sortStr (st.lemma_to_tokens l))) :=
  C4_output_files_sorted ⟨true, ["a".toList], fun _ => []⟩ morphNone ⟨[], []⟩ (by
    simp only [main, morphNone]
    rw [if_neg (by simp)]
    rw [if_neg (by simp [List.insertionSort, List.orderedInsert])]
    simp [List.insertionSort, List.orderedInsert, tokenize, html_to_text, getText,
      feedEvents, findRuns, aggregate, initAggState, tokensLines, lemmasLines,
      sortStr, serializeLines, Finset.sort_empty])

/-- C6: a missing input directory aborts the run with the "missing input"
error before any processing; an existing directory with no matching files
aborts with the distinct "no input files" error; in both cases `main`
produces no output files (the exception propagates, non-zero exit). -/
theorem C6_setup_errors (fs : FileSystem) (morph : Str → List Parse) :
    (fs.pagesDirExists = false → main fs morph = .error .missingDir) ∧
    (fs.pagesDirExists = true → fs.txtFiles = [] →
      main fs morph = .error .noInputFiles) ∧
    RunError.missingDir ≠ RunError.noInputFiles := by
  refine ⟨fun hdir => ?_, fun hdir hempty => ?_, by decide⟩
  · simp only [main]
    rw [if_pos (by simp [hdir])]
  · simp only [main]
    rw [if_neg (by simp [hdir]), hempty]
    rw [if_pos (by rfl)]

theorem C6_witness :
    main ⟨false, ["a".toList], demoPages⟩ demoMorph = .error .missingDir ∧
      main ⟨true, [], demoPages⟩ demoMorph = .error .noInputFiles :=
  ⟨(C6_setup_errors ⟨false, ["a".toList], demoPages⟩ demoMorph).1 rfl,
    (C6_setup_errors ⟨true, [], demoPages⟩ demoMorph).2.1 rfl rfl⟩

/-- C7: the final output is order-independent: for a fixed analyzer,
permuting the corpus token sequence leaves the aggregation state unchanged,
and permuting the input file list leaves `main`'s entire result (both
serialized output files) unchanged. -/
theorem C7_order_independence (morph : Str → List Parse) (toks1 toks2 : List Str)
    (fs1 fs2 : FileSystem) (hperm : toks1.Perm toks2)
    (hdir : fs1.pagesDirExists = fs2.pagesDirExists)
    (hfiles : fs1.txtFiles.Perm fs2.txtFiles)
    (hpages : fs1.pageEvents = fs2.pageEvents) :
    aggregate morph toks1 = aggregate morph toks2 ∧
      main fs1 morph = main fs2 morph := by
  constructor
  · exact hperm.foldl_eq' (fun x _ y _ z => processToken_comm morph z x y) initAggState
  · have hsorted : List.insertionSort (· ≤ ·) fs1.txtFiles =
        List.insertionSort (· ≤ ·) fs2.txtFiles := by
      exact List.eq_of_perm_of_sorted
        (((List.perm_insertionSort _ _).trans hfiles).trans
          (List.perm_insertionSort _ _).symm)
        (List.sorted_insertionSort _ _) (List.sorted_insertionSort _ _)
    unfold main
    rw [hdir, hsorted, hpages]

theorem C7_witness :
    aggregate demoMorph ["мир".toList, "да".toList] =
        aggregate demoMorph ["да".toList, "мир".toList] ∧
      main ⟨true, ["a".toList, "b".toList], demoPages⟩ demoMorph =
        main ⟨true, ["b".toList, "a".toList], demoPages⟩ demoMorph :=
  C7_order_independence demoMorph ["мир".toList, "да".toList]
    ["да".toList, "мир".toList]
    ⟨true, ["a".toList, "b".toList], demoPages⟩
    ⟨true, ["b".toList, "a".toList], demoPages⟩
    (List.Perm.swap "да".toList "мир".toList [])
    rfl (List.Perm.swap "b".toList "a".toList []) rfl

end LemmaTokenBuilder
